import Mathlib

/-!
# mangal: file names, page listing, saving and provider resolution

A shallow embedding of the parts of `util/util.go`, `converter/plain/plain.go`,
`provider/mangadex/pages.go` and `provider/provider.go` that decide how saved
files are named, how a chapter's pages are listed and saved, and how a provider
is resolved by name.

Go strings are byte sequences; they are modelled as lists of byte values.
-/

namespace Mangal

/-- A Go `string`: its bytes in order (each value is below 256 in a real string;
no definition below depends on that bound). -/
abbrev Str := List Nat

/-- The bytes of an ASCII literal, used to write concrete strings readably. -/
def ascii (s : String) : Str := s.toList.map Char.toNat

/-! ## util.go -/

namespace util

/-- `func Max[T constraints.Ordered](items ...T) (max T)` at `T = int`: the named
result starts at the zero value and is overwritten by every larger item. -/
def Max (items : List Int) : Int :=
  items.foldl (fun max item => if item > max then item else max) 0

/-- `func PadZero(s string, l int) string`:
`strings.Repeat("0", Max(l-len(s), 0)) + s`; `len` counts bytes. -/
def PadZero (s : Str) (l : Int) : Str :=
  List.replicate (Max [l - (s.length : Int), 0]).toNat 48 ++ s

/-- Length of the longest prefix all of whose bytes satisfy `p`: what a greedy
`[class]+` consumes. -/
def spanLen (p : Nat → Bool) : Str → Nat
  | [] => 0
  | c :: cs => if p c then spanLen p cs + 1 else 0

/-- `regexp.ReplaceAllString` for an expression that never matches the empty
string. `m atStart rest` is the length of the leftmost-first match that begins
exactly where `rest` begins (`0`: no match there); `atStart` tells whether that
position is the beginning of the text, which is where `^` holds. The scan goes left
to right: a match is replaced by `repl` and the scan resumes after it (`skip`
counts the matched bytes still to pass over), an unmatched byte is copied. -/
def replaceAllFrom (m : Bool → Str → Nat) (repl : Str) : Bool → Nat → Str → Str
  | _, _, [] => []
  | _, skip + 1, _ :: cs => replaceAllFrom m repl false skip cs
  | atStart, 0, c :: cs =>
    match m atStart (c :: cs) with
    | 0 => c :: replaceAllFrom m repl false 0 cs
    | n + 1 => repl ++ replaceAllFrom m repl false n cs

/-- `re.ReplaceAllString(src, repl)` with `re` given by its matcher. -/
def ReplaceAllString (m : Bool → Str → Nat) (src repl : Str) : Str :=
  replaceAllFrom m repl true 0 src

/-- The class of the first replacer, ``[\\/<>:;"'|?!*{}#%&^+,~\s]``; Go's `\s` is
`[\t\n\f\r ]`. All members are ASCII, so on the UTF-8 bytes of a string a rune is
in the class exactly when it is one byte and that byte is listed here. -/
def isForbidden (c : Nat) : Bool :=
  c == 92 || c == 47 || c == 60 || c == 62 || c == 58 || c == 59 || c == 34 ||
  c == 39 || c == 124 || c == 63 || c == 33 || c == 42 || c == 123 || c == 125 ||
  c == 35 || c == 37 || c == 38 || c == 94 || c == 43 || c == 44 || c == 126 ||
  c == 9 || c == 10 || c == 12 || c == 13 || c == 32

/-- The class `[_\-.]` of the third replacer. -/
def isSep (c : Nat) : Bool := c == 95 || c == 45 || c == 46

/-- Matcher of ``[\\/<>:;"'|?!*{}#%&^+,~\s]``: one byte of the class. -/
def matchForbidden (_atStart : Bool) : Str → Nat
  | [] => 0
  | c :: _ => if isForbidden c then 1 else 0

/-- Matcher of `__+`: an underscore followed by one or more underscores, greedy,
so the whole run when it has at least two. -/
def matchUnderscores (_atStart : Bool) (s : Str) : Nat :=
  let n := spanLen (fun c => c == 95) s
  if 2 ≤ n then n else 0

/-- Matcher of `^[_\-.]+|[_\-.]+$`. The first alternative is preferred: at the
beginning of the text the greedy run of the class. Otherwise the second: a run of
the class that reaches the end of the text; the greedy run is the only candidate,
since a shorter one stops before a byte of the class and not at the end. -/
def matchEdges (atStart : Bool) (s : Str) : Nat :=
  let n := spanLen isSep s
  if atStart then n
  else if n = s.length then n else 0

/-- `var replacers`: the three (expression, replacement) pairs, in order. -/
def replacers : List ((Bool → Str → Nat) × Str) :=
  [(matchForbidden, [95]), (matchUnderscores, [95]), (matchEdges, [])]

/-- `func SanitizeFilename(filename string) string`: the replacers applied in
order, each to the result of the one before. -/
def SanitizeFilename (filename : Str) : Str :=
  replacers.foldl (fun filename re => ReplaceAllString re.1 filename re.2) filename

end util

/-! ## source.Page and source.Chapter -/

/-- A Go `error` value, identified by its message. -/
abbrev Error := String

/-- `source.Page`. `Index` is a `uint16`; `Chapter` is the back-reference, kept as
the chapter's ID; `Contents` is the payload the reader yields. -/
structure Page where
  Index : Nat
  Chapter : Str
  Extension : Str
  Contents : Str
  SourceID : Str
deriving DecidableEq, Repr

/-- `source.Chapter`, with the name of the manga it refers to. -/
structure Chapter where
  ID : Str
  Name : Str
  MangaName : Str
  Pages : List Page
deriving DecidableEq, Repr

/-! ## converter/plain/plain.go -/

namespace plain

/-- Decimal digits of `n`, most significant first, as ASCII bytes; `fuel` bounds
the number of digits produced. -/
def decimal : Nat → Nat → Str
  | 0, _ => []
  | fuel + 1, n => if n < 10 then [48 + n] else decimal fuel (n / 10) ++ [48 + n % 10]

/-- `fmt.Sprintf("%d", n)` for an unsigned `n`. -/
def formatUint (n : Nat) : Str := decimal (n + 1) n

/-- The first two statements of `savePage`:
`pageName := fmt.Sprintf("%d%s", page.Index, page.Extension)` and then
`pageName = util.PadZero(pageName, 10)`. -/
def pageName (index : Nat) (extension : Str) : Str :=
  util.PadZero (formatUint index ++ extension) 10

/-- Go's built-in `<` on strings: byte-wise lexicographic order. -/
def strLt : Str → Str → Bool
  | _, [] => false
  | [], _ :: _ => true
  | a :: as, b :: bs => a < b || (a == b && strLt as bs)

/-- How the environment answers the two fallible calls `savePage` makes for one
page: `filesystem.Get().Create` and `io.Copy` (`none`: a nil error). -/
structure PageIO where
  create : Option Error
  copy : Option Error
deriving DecidableEq, Repr

/-- What one call of `savePage` does: the error it returns, the file name it
passes to `Create` (under the directory `to`), and how many times it calls
`page.Close()`. -/
structure PageSaved where
  err : Option Error
  name : Str
  closes : Nat
deriving DecidableEq, Repr

/-- `func savePage(page *source.Page, to string) error`. -/
def savePage (page : Page) (io : PageIO) : PageSaved :=
  let name := pageName page.Index page.Extension
  match io.create with
  | some e => { err := some e, name := name, closes := 0 }
  | none =>
    match io.copy with
    | some e => { err := some e, name := name, closes := 0 }
    | none => { err := none, name := name, closes := 1 }

/-- The loop of `Save` over `chapter.Pages`. The function literal is called in
place (there is no `go` statement), so the pages are handled one after another:
with `err` already set the body returns at once, otherwise `err = savePage(...)`.
`pos` is the position of the next page; the second component lists, page by page,
how many times `Close` was called on it. -/
def saveLoop (io : Nat → PageIO) : Nat → Option Error → List Page → Option Error × List Nat
  | _, err, [] => (err, [])
  | pos, some e, _ :: pages =>
    let r := saveLoop io (pos + 1) (some e) pages
    (r.1, 0 :: r.2)
  | pos, none, page :: pages =>
    let s := savePage page (io pos)
    let r := saveLoop io (pos + 1) s.err pages
    (r.1, s.closes :: r.2)

/-- The library and environment `Save` relies on: the configured downloads root,
`filepath.Join`, `filepath.Dir`, `filepath.Abs`, the outcome of `MkdirAll`, and the
answers to each page's file operations by position in `chapter.Pages`. -/
structure Env where
  downloaderPath : Str
  join : List Str → Str
  dir : Str → Str
  abs : Str → Except Error Str
  mkdirAll : Str → Option Error
  io : Nat → PageIO

/-- `func prepareChapterDir(chapter *source.Chapter) (chapterDir string, err error)`. -/
def prepareChapterDir (env : Env) (chapter : Chapter) : Str × Option Error :=
  let chapterDir := env.join
    [env.downloaderPath, util.SanitizeFilename chapter.MangaName,
      util.SanitizeFilename chapter.Name]
  match env.mkdirAll chapterDir with
  | some e => ([], some e)
  | none => (chapterDir, none)

/-- What `Save` returns, `(string, error)`, together with the number of `Close`
calls each page of the chapter received. -/
structure Saved where
  path : Str
  err : Option Error
  closes : List Nat
deriving DecidableEq, Repr

/-- `func (_ *Plain) Save(chapter *source.Chapter) (string, error)`. -/
def Save (env : Env) (chapter : Chapter) : Saved :=
  match prepareChapterDir env chapter with
  | (_, some e) => { path := [], err := some e, closes := chapter.Pages.map fun _ => 0 }
  | (chapterDir, none) =>
    match saveLoop env.io 0 none chapter.Pages with
    | (some e, closes) => { path := [], err := some e, closes := closes }
    | (none, closes) =>
      match env.abs (env.dir chapterDir) with
      | .error _ => { path := env.dir chapterDir, err := none, closes := closes }
      | .ok mangaDir => { path := mangaDir, err := none, closes := closes }

end plain

/-! ## provider/mangadex/pages.go -/

namespace mangadex

/-- The MangaDex@Home client of one call: the page names the origin reports and,
for the `k`-th call of `GetChapterPage` (made with the `k`-th name), what it
returns. -/
structure Downloader where
  Pages : List Str
  GetChapterPage : Nat → Str → Except Error Str

/-- The `for i, name := range downloader.Pages` loop of `PagesOf`. `chapterPages`
is `chapter.Pages`, `pages` the local slice; the result is what `PagesOf` returns
(`(nil, err)` is `.error err`) and `chapter.Pages` at that moment. -/
def pagesLoop (ext : Str → Str) (sourceID chapterID : Str)
    (get : Nat → Str → Except Error Str) :
    Nat → List Str → List Page → List Page → Except Error (List Page) × List Page
  | _, [], chapterPages, pages => (.ok pages, chapterPages)
  | i, name :: names, chapterPages, pages =>
    match get i name with
    | .error err => (.error err, chapterPages)
    | .ok image =>
      if image.length = 0 then (.error "empty image", chapterPages)
      else
        let page : Page :=
          { Index := i % 65536, Chapter := chapterID, Extension := ext name,
            Contents := image, SourceID := sourceID }
        pagesLoop ext sourceID chapterID get (i + 1) names (chapterPages ++ [page])
          (pages ++ [page])

/-- `func (m *Mangadex) PagesOf(chapter *source.Chapter) ([]*source.Page, error)`.
`client` is the outcome of `NewMDHomeClient`, `ext` is `filepath.Ext`, `sourceID`
the package constant `ID`. Returns the result and the chapter as the call leaves
it. -/
def PagesOf (ext : Str → Str) (sourceID : Str) (client : Except Error Downloader)
    (chapter : Chapter) : Except Error (List Page) × Chapter :=
  match client with
  | .error err => (.error err, chapter)
  | .ok downloader =>
    if downloader.Pages.length = 0 then (.error "no pages found", chapter)
    else
      let r := pagesLoop ext sourceID chapter.ID downloader.GetChapterPage 0
        downloader.Pages chapter.Pages []
      (r.1, { chapter with Pages := r.2 })

end mangadex

/-! ## provider/provider.go -/

namespace provider

/-- `type Provider struct`; `σ` is the type of the `CreateSource` function values. -/
structure Provider (σ : Type) where
  ID : Str
  Name : Str
  CreateSource : σ

/-- One `for _, provider := range ...` loop of `Get`: the first provider whose
`Name` equals `name`. -/
def firstNamed {σ : Type} (name : Str) : List (Provider σ) → Option (Provider σ)
  | [] => none
  | provider :: rest => if provider.Name = name then some provider else firstNamed name rest

/-- `func Get(name string) (*Provider, bool)`, with the lists `Builtins()` and
`Customs()` return; `(p, true)` is `some p` and `(nil, false)` is `none`. -/
def Get {σ : Type} (builtins customs : List (Provider σ)) (name : Str) : Option (Provider σ) :=
  match firstNamed name builtins with
  | some provider => some provider
  | none => firstNamed name customs

end provider

/-! ## Predicates and concrete inputs used by the theorems -/

/-- No two neighbouring bytes are both underscores. -/
def util.NoDoubleUnderscore (s : Str) : Prop :=
  List.Chain' (fun a b => ¬ (a = 95 ∧ b = 95)) s

/-- The `w` lowest decimal digits of `n`, most significant first, as ASCII bytes:
`n` written in a field of width `w` with leading zeros. -/
def plain.fixedWidth : Nat → Nat → Str
  | 0, _ => []
  | w + 1, n => plain.fixedWidth w (n / 10) ++ [48 + n % 10]

/-- The scan of `filepath.Ext` from the end of the path towards its beginning:
`rest` holds the bytes not yet visited, last byte first, and `seen` the bytes
already passed. It stops with the empty string at a path separator and with the
suffix that begins at the dot when it meets one. -/
def mangadex.extScan : Str → Str → Str
  | [], _ => []
  | c :: rest, seen =>
    if c = 47 then [] else if c = 46 then c :: seen else mangadex.extScan rest (c :: seen)

/-- `filepath.Ext` of the Go library where the path separator is `/`: the suffix
beginning at the final dot in the final element of the path, empty without a dot. -/
def mangadex.filepathExt (path : Str) : Str := mangadex.extScan path.reverse []

/-- A client whose origin reports the given page names and answers every fetch
with the same payload. -/
def mangadex.uniformClient (names : List Str) (image : Str) : mangadex.Downloader :=
  { Pages := names, GetChapterPage := fun _ _ => .ok image }

/-- A chapter that already holds one page. -/
def mangadex.heldOnePage : Chapter :=
  { ID := [99], Name := [], MangaName := []
    Pages := [
      { Index := 0, Chapter := [99], Extension := ascii ".jpg", Contents := [7],
        SourceID := ascii "Mangadex" }] }

/-- The chapter a first call of `PagesOf` leaves behind, for a chapter without pages
whose origin reports the two pages `1.png` and `2.png`. -/
def mangadex.populatedOnce : Chapter :=
  (mangadex.PagesOf mangadex.filepathExt (ascii "Mangadex")
    (.ok (mangadex.uniformClient [ascii "1.png", ascii "2.png"] [137, 80]))
    { ID := [99], Name := [], MangaName := [], Pages := [] }).2

/-- A client reporting two pages, the first of which is fetched and the second
of which fails. -/
def mangadex.secondFails : mangadex.Downloader :=
  { Pages := [ascii "1.png", ascii "2.png"],
    GetChapterPage := fun k _ => if k = 0 then .ok [137, 80] else .error "timeout" }

/-- A file system on which every directory and file operation succeeds, except
the operations of the pages whose positions `fails` singles out: creation fails
where it says `some true`, the copy where it says `some false`. -/
def plain.envFailing (fails : Nat → Option Bool) : plain.Env :=
  { downloaderPath := ascii "dl"
    join := fun parts => List.intercalate [47] parts
    dir := fun path => (path.reverse.dropWhile (fun c => c != 47)).tail.reverse
    abs := fun path => .ok (47 :: path)
    mkdirAll := fun _ => none
    io := fun k =>
      match fails k with
      | some true => { create := some "permission denied", copy := none }
      | some false => { create := none, copy := some "unexpected EOF" }
      | none => { create := none, copy := none } }

/-- A chapter of three pages with indices 0, 1 and 2. -/
def plain.threePages : Chapter :=
  { ID := [99], Name := ascii "Ch. 1", MangaName := ascii "One Piece"
    Pages := [
      { Index := 0, Chapter := [99], Extension := ascii ".jpg", Contents := [1], SourceID := [] },
      { Index := 1, Chapter := [99], Extension := ascii ".jpg", Contents := [2], SourceID := [] },
      { Index := 2, Chapter := [99], Extension := ascii ".jpg", Contents := [3], SourceID := [] }] }

/-! ## SanitizeFilename -/

/-- The greedy run is no longer than the string. -/
theorem util.spanLen_le (p : Nat → Bool) (s : Str) : util.spanLen p s ≤ s.length := by
  induction s with
  | nil => simp [util.spanLen]
  | cons c cs ih =>
    simp only [util.spanLen]
    split_ifs
    · simp; omega
    · simp

/-- The greedy run covers the whole string exactly when every byte is in the class. -/
theorem util.spanLen_eq_length (p : Nat → Bool) (s : Str) :
    util.spanLen p s = s.length ↔ ∀ c ∈ s, p c = true := by
  induction s with
  | nil => simp [util.spanLen]
  | cons c cs ih =>
    simp only [util.spanLen, List.length_cons, List.mem_cons, forall_eq_or_imp]
    by_cases h : p c = true
    · simp [h, ih]
    · simp [h]

/-- The byte right after the greedy run, when there is one, is outside the class. -/
theorem util.head_drop_spanLen (p : Nat → Bool) (s : Str) :
    ∀ c, (s.drop (util.spanLen p s)).head? = some c → p c = false := by
  induction s with
  | nil => intro c h; simp [util.spanLen] at h
  | cons a cs ih =>
    intro c h
    by_cases ha : p a = true
    · simp only [util.spanLen, ha, if_true, List.drop_succ_cons] at h
      exact ih c h
    · have ha2 : p a = false := by simpa using ha
      simp only [util.spanLen, ha2, Bool.false_eq_true, if_false, List.drop_zero,
        List.head?_cons, Option.some.injEq] at h
      subst h
      exact ha2

/-- Passing over `n` matched bytes is resuming the scan `n` bytes further on. -/
theorem util.replaceAllFrom_skip (m : Bool → Str → Nat) (repl : Str) :
    ∀ (n : Nat) (s : Str),
      util.replaceAllFrom m repl false n s = util.replaceAllFrom m repl false 0 (s.drop n) := by
  intro n
  induction n with
  | zero => intro s; simp
  | succ n ih =>
    intro s
    cases s with
    | nil => simp [util.replaceAllFrom]
    | cons c cs => simp only [util.replaceAllFrom, List.drop_succ_cons]; exact ih cs

/-- One step of the scan at a position where nothing is being passed over. -/
theorem util.replaceAllFrom_cons (m : Bool → Str → Nat) (repl : Str) (b : Bool) (c : Nat)
    (cs : Str) :
    util.replaceAllFrom m repl b 0 (c :: cs) =
      if m b (c :: cs) = 0 then c :: util.replaceAllFrom m repl false 0 cs
      else repl ++ util.replaceAllFrom m repl false 0 ((c :: cs).drop (m b (c :: cs))) := by
  simp only [util.replaceAllFrom]
  cases h : m b (c :: cs) with
  | zero => simp
  | succ n => simp [util.replaceAllFrom_skip m repl n cs]

/-- The first replacer turns every byte of its class into an underscore and keeps
the others. -/
theorem util.replaceForbidden_eq_map (b : Bool) (s : Str) :
    util.replaceAllFrom util.matchForbidden [95] b 0 s =
      s.map (fun c => if util.isForbidden c then 95 else c) := by
  induction s generalizing b with
  | nil => simp [util.replaceAllFrom]
  | cons c cs ih =>
    rw [util.replaceAllFrom_cons]
    by_cases h : util.isForbidden c = true
    · simp [util.matchForbidden, h, ih]
    · simp [util.matchForbidden, h, ih]

/-- After the first replacer no byte of its class is left. -/
theorem util.replaceForbidden_clean (s : Str) :
    ∀ c ∈ util.ReplaceAllString util.matchForbidden s [95], util.isForbidden c = false := by
  intro c hc
  rw [util.ReplaceAllString, util.replaceForbidden_eq_map] at hc
  obtain ⟨a, _, ha⟩ := List.mem_map.mp hc
  by_cases h : util.isForbidden a = true
  · simp only [h, if_true] at ha
    subst ha
    decide
  · simp only [h] at ha
    subst ha
    simpa using h

/-- The first replacer leaves a string without bytes of its class unchanged. -/
theorem util.replaceForbidden_id (s : Str) (h : ∀ c ∈ s, util.isForbidden c = false) :
    util.ReplaceAllString util.matchForbidden s [95] = s := by
  rw [util.ReplaceAllString, util.replaceForbidden_eq_map]
  conv_rhs => rw [← List.map_id s]
  apply List.map_congr_left
  intro c hc
  simp [h c hc]

/-- The matcher of `__+` finds nothing exactly when the run of underscores at the
position is shorter than two. -/
theorem util.matchUnderscores_eq_zero (b : Bool) (s : Str) :
    util.matchUnderscores b s = 0 ↔ util.spanLen (fun c => c == 95) s < 2 := by
  unfold util.matchUnderscores
  by_cases h : 2 ≤ util.spanLen (fun c => c == 95) s
  · simp [h]; omega
  · simp [h]; omega

/-- When the matcher of `__+` finds a match, it is the whole run, of two or more
underscores. -/
theorem util.matchUnderscores_of_ne_zero (b : Bool) (s : Str)
    (h : util.matchUnderscores b s ≠ 0) :
    util.matchUnderscores b s = util.spanLen (fun c => c == 95) s ∧
      2 ≤ util.spanLen (fun c => c == 95) s := by
  unfold util.matchUnderscores at h ⊢
  by_cases h2 : 2 ≤ util.spanLen (fun c => c == 95) s
  · simp [h2]
  · simp [h2] at h

/-- The second replacer, scanning from anywhere: the result has no two
neighbouring underscores, begins with the byte the input begins with, and holds
only bytes of the input. -/
theorem util.collapse_spec : ∀ (n : Nat) (t : Str), t.length ≤ n →
    util.NoDoubleUnderscore (util.replaceAllFrom util.matchUnderscores [95] false 0 t) ∧
    (util.replaceAllFrom util.matchUnderscores [95] false 0 t).head? = t.head? ∧
    (∀ c ∈ util.replaceAllFrom util.matchUnderscores [95] false 0 t, c ∈ t) := by
  intro n
  induction n with
  | zero =>
    intro t ht
    have : t = [] := List.length_eq_zero.mp (by omega)
    subst this
    simp [util.replaceAllFrom, util.NoDoubleUnderscore]
  | succ n ih =>
    intro t ht
    cases t with
    | nil => simp [util.replaceAllFrom, util.NoDoubleUnderscore]
    | cons c cs =>
      rw [util.replaceAllFrom_cons]
      have hcs : cs.length ≤ n := by simpa using ht
      by_cases hm : util.matchUnderscores false (c :: cs) = 0
      · obtain ⟨h1, h2, h3⟩ := ih cs hcs
        simp only [hm, if_true]
        refine ⟨?_, by simp, ?_⟩
        · unfold util.NoDoubleUnderscore
          rw [List.chain'_cons']
          refine ⟨?_, h1⟩
          intro y hy
          rw [h2] at hy
          rintro ⟨hc, hy95⟩
          subst hc hy95
          have hspan := (util.matchUnderscores_eq_zero false (95 :: cs)).mp hm
          cases cs with
          | nil => simp at hy
          | cons a cs' =>
            simp only [List.head?_cons, Option.mem_def, Option.some.injEq] at hy
            subst hy
            simp only [util.spanLen, beq_self_eq_true, if_true] at hspan
            omega
        · intro x hx
          rcases List.mem_cons.mp hx with hx | hx
          · simp [hx]
          · exact List.mem_cons_of_mem _ (h3 x hx)
      · obtain ⟨hlen, hge⟩ := util.matchUnderscores_of_ne_zero false (c :: cs) hm
        have hc : c = 95 := by
          by_contra hne
          simp [util.spanLen, hne] at hge
        have hdrop : ((c :: cs).drop (util.spanLen (fun c => c == 95) (c :: cs))).length ≤ n := by
          simp only [List.length_drop, List.length_cons]
          have := ht
          simp only [List.length_cons] at this
          omega
        obtain ⟨h1, h2, h3⟩ := ih _ hdrop
        rw [if_neg hm, hlen, List.singleton_append]
        refine ⟨?_, by simp [hc], ?_⟩
        · unfold util.NoDoubleUnderscore
          rw [List.chain'_cons']
          refine ⟨?_, h1⟩
          intro y hy
          rw [h2] at hy
          have := util.head_drop_spanLen (fun c => c == 95) (c :: cs) y hy
          rintro ⟨_, hy95⟩
          simp [hy95] at this
        · intro x hx
          rcases List.mem_cons.mp hx with hx | hx
          · simp [hx, hc]
          · exact List.mem_of_mem_drop (h3 x hx)

/-- The matcher of `__+` does not look at whether it stands at the beginning. -/
theorem util.collapse_from_start (b : Bool) (t : Str) :
    util.replaceAllFrom util.matchUnderscores [95] b 0 t =
      util.replaceAllFrom util.matchUnderscores [95] false 0 t := by
  cases t with
  | nil => simp [util.replaceAllFrom]
  | cons c cs => rw [util.replaceAllFrom_cons, util.replaceAllFrom_cons]; rfl

/-- After the second replacer no two neighbouring bytes are both underscores. -/
theorem util.replaceUnderscores_noDouble (s : Str) :
    util.NoDoubleUnderscore (util.ReplaceAllString util.matchUnderscores s [95]) := by
  rw [util.ReplaceAllString, util.collapse_from_start]
  exact (util.collapse_spec s.length s (le_refl _)).1

/-- The second replacer introduces no byte the input does not have. -/
theorem util.replaceUnderscores_mem (s : Str) :
    ∀ c ∈ util.ReplaceAllString util.matchUnderscores s [95], c ∈ s := by
  rw [util.ReplaceAllString, util.collapse_from_start]
  exact (util.collapse_spec s.length s (le_refl _)).2.2

/-- The second replacer leaves a string without neighbouring underscores
unchanged. -/
theorem util.replaceUnderscores_id (s : Str) (h : util.NoDoubleUnderscore s) :
    util.ReplaceAllString util.matchUnderscores s [95] = s := by
  rw [util.ReplaceAllString, util.collapse_from_start]
  induction s with
  | nil => simp [util.replaceAllFrom]
  | cons c cs ih =>
    unfold util.NoDoubleUnderscore at h
    rw [List.chain'_cons'] at h
    have hm : util.matchUnderscores false (c :: cs) = 0 := by
      rw [util.matchUnderscores_eq_zero]
      by_cases hc : c = 95
      · cases cs with
        | nil => simp [util.spanLen, hc]
        | cons a cs' =>
          have := h.1 a (by simp)
          have ha : a ≠ 95 := fun ha => this ⟨hc, ha⟩
          simp [util.spanLen, hc, ha]
      · simp [util.spanLen, hc]
    rw [util.replaceAllFrom_cons]
    simp only [hm, if_true]
    rw [ih h.2]

/-- The third replacer, scanning from a position after the beginning: when all
the remaining bytes are of the class `[_\-.]` they are removed, otherwise the byte
at the position is copied. -/
theorem util.stripEnd_cons (c : Nat) (cs : Str) :
    util.replaceAllFrom util.matchEdges [] false 0 (c :: cs) =
      if ∀ x ∈ c :: cs, util.isSep x = true then []
      else c :: util.replaceAllFrom util.matchEdges [] false 0 cs := by
  rw [util.replaceAllFrom_cons]
  have hiff := util.spanLen_eq_length util.isSep (c :: cs)
  by_cases hall : ∀ x ∈ c :: cs, util.isSep x = true
  · have hspan := hiff.mpr hall
    have hm : util.matchEdges false (c :: cs) = (c :: cs).length := by
      simp [util.matchEdges, hspan]
    rw [if_pos hall, hm]
    simp [util.replaceAllFrom]
  · have hspan : ¬ util.spanLen util.isSep (c :: cs) = (c :: cs).length :=
      fun h => hall (hiff.mp h)
    have hm : util.matchEdges false (c :: cs) = 0 := by
      simp only [util.matchEdges, Bool.false_eq_true, if_false, hspan]
    rw [if_neg hall, hm]
    simp

/-- The scan from a later position only removes bytes at the end. -/
theorem util.stripEnd_prefix (t : Str) :
    util.replaceAllFrom util.matchEdges [] false 0 t <+: t := by
  induction t with
  | nil => simp [util.replaceAllFrom]
  | cons c cs ih =>
    rw [util.stripEnd_cons]
    split_ifs
    · exact List.nil_prefix
    · exact List.cons_prefix_cons.mpr ⟨rfl, ih⟩

/-- The scan from a later position leaves nothing exactly when every byte is of the
class. -/
theorem util.stripEnd_eq_nil (t : Str) :
    util.replaceAllFrom util.matchEdges [] false 0 t = [] ↔ ∀ x ∈ t, util.isSep x = true := by
  cases t with
  | nil => simp [util.replaceAllFrom]
  | cons c cs =>
    rw [util.stripEnd_cons]
    by_cases hall : ∀ x ∈ c :: cs, util.isSep x = true
    · simp only [if_pos hall, true_iff]; exact hall
    · simp only [if_neg hall, false_iff]
      constructor
      · intro h; exact absurd h (by simp)
      · intro h; exact absurd h hall

/-- What the scan from a later position leaves does not end with a byte of the
class. -/
theorem util.stripEnd_last (t : Str) :
    ∀ x, (util.replaceAllFrom util.matchEdges [] false 0 t).getLast? = some x →
      util.isSep x = false := by
  induction t with
  | nil => intro x h; simp [util.replaceAllFrom] at h
  | cons c cs ih =>
    intro x h
    rw [util.stripEnd_cons] at h
    by_cases hall : ∀ x ∈ c :: cs, util.isSep x = true
    · rw [if_pos hall] at h
      simp at h
    · rw [if_neg hall] at h
      cases hE : util.replaceAllFrom util.matchEdges [] false 0 cs with
      | nil =>
        rw [hE] at h
        simp only [List.getLast?_singleton, Option.some.injEq] at h
        subst h
        have hcs := (util.stripEnd_eq_nil cs).mp hE
        by_contra hc
        apply hall
        intro y hy
        rcases List.mem_cons.mp hy with hy | hy
        · subst hy; simpa using hc
        · exact hcs y hy
      | cons a rest =>
        rw [hE, List.getLast?_cons_cons] at h
        rw [hE] at ih
        exact ih x h

/-- A string that does not end with a byte of the class is left unchanged by the
scan from a later position. -/
theorem util.stripEnd_id (t : Str) (h : ∀ x, t.getLast? = some x → util.isSep x = false) :
    util.replaceAllFrom util.matchEdges [] false 0 t = t := by
  induction t with
  | nil => simp [util.replaceAllFrom]
  | cons c cs ih =>
    rw [util.stripEnd_cons]
    have hall : ¬ ∀ x ∈ c :: cs, util.isSep x = true := by
      intro hall
      have hmem : (c :: cs).getLast (by simp) ∈ c :: cs := List.getLast_mem _
      have h1 := hall _ hmem
      have h2 := h _ (List.getLast?_eq_getLast _ (by simp))
      rw [h1] at h2
      exact Bool.noConfusion h2
    rw [if_neg hall]
    congr 1
    apply ih
    intro x hx
    apply h
    cases cs with
    | nil => simp at hx
    | cons a rest => rw [List.getLast?_cons_cons]; exact hx

/-- The third replacer on a whole string: either the string begins outside the
class and is scanned on from its second byte, or the greedy run at the beginning
is removed and the scan goes on after it. -/
theorem util.strip_cases (s : Str) :
    (∃ c cs, s = c :: cs ∧ util.isSep c = false ∧
      util.ReplaceAllString util.matchEdges s [] =
        c :: util.replaceAllFrom util.matchEdges [] false 0 cs) ∨
    util.ReplaceAllString util.matchEdges s [] =
      util.replaceAllFrom util.matchEdges [] false 0 (s.drop (util.spanLen util.isSep s)) := by
  cases s with
  | nil => right; simp [util.ReplaceAllString, util.replaceAllFrom]
  | cons c cs =>
    unfold util.ReplaceAllString
    rw [util.replaceAllFrom_cons]
    have hm : util.matchEdges true (c :: cs) = util.spanLen util.isSep (c :: cs) := by
      simp [util.matchEdges]
    rw [hm]
    by_cases hc : util.isSep c = true
    · right
      have : ¬ util.spanLen util.isSep (c :: cs) = 0 := by simp [util.spanLen, hc]
      rw [if_neg this]
      simp
    · left
      have hc2 : util.isSep c = false := by simpa using hc
      have : util.spanLen util.isSep (c :: cs) = 0 := by simp [util.spanLen, hc2]
      exact ⟨c, cs, rfl, hc2, by rw [if_pos this]⟩

/-- The third replacer returns a contiguous part of its input. -/
theorem util.strip_contiguous (s : Str) : util.ReplaceAllString util.matchEdges s [] <:+: s := by
  rcases util.strip_cases s with ⟨c, cs, hs, _, heq⟩ | heq
  · rw [heq, hs]
    exact (List.cons_prefix_cons.mpr ⟨rfl, util.stripEnd_prefix cs⟩).isInfix
  · rw [heq]
    exact (util.stripEnd_prefix _).isInfix.trans (List.drop_suffix _ s).isInfix

/-- After the third replacer the string does not begin with a byte of `[_\-.]`. -/
theorem util.strip_head (s : Str) :
    ∀ x, (util.ReplaceAllString util.matchEdges s []).head? = some x → util.isSep x = false := by
  intro x hx
  rcases util.strip_cases s with ⟨c, cs, _, hc, heq⟩ | heq
  · rw [heq] at hx
    simp only [List.head?_cons, Option.some.injEq] at hx
    subst hx
    exact hc
  · rw [heq] at hx
    obtain ⟨rest, hrest⟩ := util.stripEnd_prefix (s.drop (util.spanLen util.isSep s))
    apply util.head_drop_spanLen util.isSep s x
    rw [← hrest]
    cases hE : util.replaceAllFrom util.matchEdges [] false 0
        (s.drop (util.spanLen util.isSep s)) with
    | nil => rw [hE] at hx; simp at hx
    | cons a l =>
      rw [hE] at hx
      simpa using hx

/-- After the third replacer the string does not end with a byte of `[_\-.]`. -/
theorem util.strip_last (s : Str) :
    ∀ x, (util.ReplaceAllString util.matchEdges s []).getLast? = some x →
      util.isSep x = false := by
  intro x hx
  rcases util.strip_cases s with ⟨c, cs, _, hc, heq⟩ | heq
  · rw [heq] at hx
    cases hE : util.replaceAllFrom util.matchEdges [] false 0 cs with
    | nil =>
      rw [hE] at hx
      simp only [List.getLast?_singleton, Option.some.injEq] at hx
      subst hx
      exact hc
    | cons a l =>
      rw [hE, List.getLast?_cons_cons] at hx
      apply util.stripEnd_last cs x
      rw [hE]
      exact hx
  · rw [heq] at hx
    exact util.stripEnd_last _ x hx

/-- The third replacer leaves unchanged a string that neither begins nor ends with
a byte of `[_\-.]`. -/
theorem util.strip_id (s : Str) (hhead : ∀ x, s.head? = some x → util.isSep x = false)
    (hlast : ∀ x, s.getLast? = some x → util.isSep x = false) :
    util.ReplaceAllString util.matchEdges s [] = s := by
  cases s with
  | nil => simp [util.ReplaceAllString, util.replaceAllFrom]
  | cons c cs =>
    have hc : util.isSep c = false := hhead c (by simp)
    rcases util.strip_cases (c :: cs) with ⟨c', cs', hs, _, heq⟩ | heq
    · rw [heq]
      obtain ⟨h1, h2⟩ := List.cons.inj hs
      subst h1 h2
      congr 1
      apply util.stripEnd_id
      intro x hx
      apply hlast
      cases cs with
      | nil => simp at hx
      | cons a rest => rw [List.getLast?_cons_cons]; exact hx
    · rw [heq]
      have : util.spanLen util.isSep (c :: cs) = 0 := by simp [util.spanLen, hc]
      rw [this, List.drop_zero]
      exact util.stripEnd_id _ hlast

/-- `SanitizeFilename` is the third replacer applied to the second applied to the
first. -/
theorem util.SanitizeFilename_eq (s : Str) :
    util.SanitizeFilename s =
      util.ReplaceAllString util.matchEdges
        (util.ReplaceAllString util.matchUnderscores
          (util.ReplaceAllString util.matchForbidden s [95]) [95]) [] := rfl

/-- What every result of `SanitizeFilename` satisfies: no byte of the first
replacer's class, no two neighbouring underscores, and no byte of `[_\-.]` at
either end. -/
theorem util.SanitizeFilename_invariants (s : Str) :
    (∀ c ∈ util.SanitizeFilename s, util.isForbidden c = false) ∧
    util.NoDoubleUnderscore (util.SanitizeFilename s) ∧
    (∀ x, (util.SanitizeFilename s).head? = some x → util.isSep x = false) ∧
    (∀ x, (util.SanitizeFilename s).getLast? = some x → util.isSep x = false) := by
  rw [util.SanitizeFilename_eq]
  refine ⟨?_, ?_, util.strip_head _, util.strip_last _⟩
  · intro c hc
    have h3 := (util.strip_contiguous _).subset hc
    have h2 := util.replaceUnderscores_mem _ c h3
    exact util.replaceForbidden_clean s c h2
  · exact List.Chain'.infix (util.replaceUnderscores_noDouble _) (util.strip_contiguous _)

/-- C1: for every input string, the result of `SanitizeFilename` contains none of
the bytes `/ \ : * ? " < > |` and neither begins nor ends with an underscore, a
hyphen or a dot; and `One Piece: Ch. 1?` becomes `One_Piece_Ch._1`. -/
theorem SanitizeFilename_emits_no_forbidden_byte (s : Str) :
    (∀ c ∈ util.SanitizeFilename s, c ∉ ascii "/\\:*?\"<>|") ∧
    (∀ c, (util.SanitizeFilename s).head? = some c → c ∉ ascii "_-.") ∧
    (∀ c, (util.SanitizeFilename s).getLast? = some c → c ∉ ascii "_-.") ∧
    util.SanitizeFilename (ascii "One Piece: Ch. 1?") = ascii "One_Piece_Ch._1" := by
  obtain ⟨h1, _, h3, h4⟩ := util.SanitizeFilename_invariants s
  have hf : ∀ c ∈ ascii "/\\:*?\"<>|", util.isForbidden c = true := by decide
  have hsep : ∀ c ∈ ascii "_-.", util.isSep c = true := by decide
  refine ⟨?_, ?_, ?_, by decide⟩
  · intro c hc hmem
    have := hf c hmem
    rw [h1 c hc] at this
    exact Bool.noConfusion this
  · intro c hc hmem
    have := hsep c hmem
    rw [h3 c hc] at this
    exact Bool.noConfusion this
  · intro c hc hmem
    have := hsep c hmem
    rw [h4 c hc] at this
    exact Bool.noConfusion this

/-- C2: `SanitizeFilename` is idempotent. -/
theorem SanitizeFilename_idempotent (s : Str) :
    util.SanitizeFilename (util.SanitizeFilename s) = util.SanitizeFilename s := by
  obtain ⟨h1, h2, h3, h4⟩ := util.SanitizeFilename_invariants s
  rw [util.SanitizeFilename_eq (util.SanitizeFilename s)]
  rw [util.replaceForbidden_id _ h1, util.replaceUnderscores_id _ h2, util.strip_id _ h3 h4]

/-! ## Max -/

/-- C10 (fails on the code): for the non-empty list `[-3, -1]` `Max` returns `0`,
the zero value its result starts from, which is not an element of the list; the
maximum of the list is `-1`. -/
theorem Max_of_negatives_is_zero :
    util.Max [-3, -1] = 0 ∧ (0 : Int) ∉ [(-3 : Int), -1] ∧ util.Max [-1] = 0 := by
  decide

/-- On every list `Max` is an upper bound of the items and of zero, and it is
either zero or one of the items. -/
theorem Max_upper_bound (items : List Int) :
    (∀ x ∈ items, x ≤ util.Max items) ∧ 0 ≤ util.Max items ∧
      (util.Max items = 0 ∨ util.Max items ∈ items) := by
  have key : ∀ (l : List Int) (acc : Int),
      (∀ x ∈ l, x ≤ l.foldl (fun max item => if item > max then item else max) acc) ∧
      acc ≤ l.foldl (fun max item => if item > max then item else max) acc ∧
      (l.foldl (fun max item => if item > max then item else max) acc = acc ∨
        l.foldl (fun max item => if item > max then item else max) acc ∈ l) := by
    intro l
    induction l with
    | nil => intro acc; simp
    | cons a l ih =>
      intro acc
      simp only [List.foldl_cons, List.mem_cons, forall_eq_or_imp]
      by_cases h : a > acc
      · obtain ⟨h1, h2, h3⟩ := ih a
        simp only [h, if_true]
        refine ⟨⟨h2, h1⟩, by omega, ?_⟩
        rcases h3 with h3 | h3
        · right; left; exact h3
        · right; right; exact h3
      · obtain ⟨h1, h2, h3⟩ := ih acc
        simp only [h, if_false]
        refine ⟨⟨by omega, h1⟩, h2, ?_⟩
        rcases h3 with h3 | h3
        · left; exact h3
        · right; right; exact h3
  exact key items 0

/-! ## Page file names -/

/-- C3 (fails on the code): for a page with index 3 and extension `.jpg`, whatever
the file operations answer, `savePage` passes the name `000003.jpg` to `Create`:
the padding to width ten is applied to index and extension together, so the index
is padded to six digits and the name is not `0000000003.jpg`. -/
theorem savePage_name_index_3_jpg (chapter contents sourceID : Str) (io : plain.PageIO) :
    (plain.savePage
        { Index := 3, Chapter := chapter, Extension := ascii ".jpg",
          Contents := contents, SourceID := sourceID } io).name = ascii "000003.jpg" ∧
      ascii "000003.jpg" ≠ ascii "0000000003.jpg" := by
  refine ⟨?_, by decide⟩
  unfold plain.savePage
  have h : plain.pageName 3 (ascii ".jpg") = ascii "000003.jpg" := by decide
  cases hc : io.create <;> cases hp : io.copy <;> simp [h]

/-- C4 (fails on the code): with the nine-byte extension `.jpegjpeg` the name for
index 9 is `9.jpegjpeg` and the name for index 10 is `10.jpegjpeg`, and the first
is not smaller than the second; with `.jpg` the same happens for the indices
999999 and 1000000, both below 9,999,999,999. -/
theorem pageName_order_breaks :
    plain.pageName 9 (ascii ".jpegjpeg") = ascii "9.jpegjpeg" ∧
    plain.pageName 10 (ascii ".jpegjpeg") = ascii "10.jpegjpeg" ∧
    plain.strLt (plain.pageName 9 (ascii ".jpegjpeg"))
      (plain.pageName 10 (ascii ".jpegjpeg")) = false ∧
    plain.pageName 999999 (ascii ".jpg") = ascii "999999.jpg" ∧
    plain.pageName 1000000 (ascii ".jpg") = ascii "1000000.jpg" ∧
    plain.strLt (plain.pageName 999999 (ascii ".jpg"))
      (plain.pageName 1000000 (ascii ".jpg")) = false := by
  decide

/-- In a chapter that mixes extensions of different lengths the names do not follow
the indices either: `00001.jpeg`, the name for index 1, is not smaller than
`000002.jpg`, the name for index 2. -/
theorem pageName_mixed_extensions_out_of_order :
    plain.pageName 1 (ascii ".jpeg") = ascii "00001.jpeg" ∧
    plain.pageName 2 (ascii ".jpg") = ascii "000002.jpg" ∧
    plain.strLt (plain.pageName 1 (ascii ".jpeg")) (plain.pageName 2 (ascii ".jpg")) = false := by
  decide

/-- `Max(x, 0)` is `x` when `x` is positive and `0` otherwise, so `PadZero` puts
`l - len(s)` zeros in front of `s`, none when `s` is already `l` bytes or more. -/
theorem util.PadZero_eq (s : Str) (l : Nat) :
    util.PadZero s (l : Int) = List.replicate (l - s.length) 48 ++ s := by
  unfold util.PadZero
  congr 2
  simp only [util.Max, List.foldl_cons, List.foldl_nil]
  split_ifs <;> omega

/-- Zero written in a field of width `w` is `w` zeros. -/
theorem plain.fixedWidth_zero (w : Nat) : plain.fixedWidth w 0 = List.replicate w 48 := by
  induction w with
  | zero => rfl
  | succ w ih => simp [plain.fixedWidth, ih, List.replicate_succ']

/-- A field of width `w` has `w` bytes. -/
theorem plain.fixedWidth_length (w n : Nat) : (plain.fixedWidth w n).length = w := by
  induction w generalizing n with
  | zero => rfl
  | succ w ih => simp [plain.fixedWidth, ih]

/-- With enough fuel, the decimal digits of `n` padded with zeros to a width they
fit in are `n` written in a field of that width. -/
theorem plain.decimal_pad : ∀ (fuel n w : Nat), n < fuel → (plain.decimal fuel n).length ≤ w →
    List.replicate (w - (plain.decimal fuel n).length) 48 ++ plain.decimal fuel n
      = plain.fixedWidth w n := by
  intro fuel
  induction fuel with
  | zero => intro n w h; omega
  | succ fuel ih =>
    intro n w hn hw
    unfold plain.decimal at hw ⊢
    by_cases h10 : n < 10
    · simp only [h10, if_true, List.length_singleton] at hw ⊢
      obtain ⟨w', rfl⟩ : ∃ w', w = w' + 1 := ⟨w - 1, by omega⟩
      have hdiv : n / 10 = 0 := by omega
      have hmod : n % 10 = n := by omega
      simp [plain.fixedWidth, hdiv, hmod, plain.fixedWidth_zero]
    · simp only [h10, if_false, List.length_append, List.length_singleton] at hw ⊢
      obtain ⟨w', rfl⟩ : ∃ w', w = w' + 1 := ⟨w - 1, by omega⟩
      have hfuel : n / 10 < fuel := by omega
      have := ih (n / 10) w' hfuel (by omega)
      simp only [plain.fixedWidth, ← this, Nat.add_sub_add_right, List.append_assoc]

/-- With enough fuel, `n` is below ten to the number of its digits. -/
theorem plain.decimal_lt_pow : ∀ (fuel n : Nat), n < fuel →
    n < 10 ^ (plain.decimal fuel n).length := by
  intro fuel
  induction fuel with
  | zero => intro n h; omega
  | succ fuel ih =>
    intro n hn
    unfold plain.decimal
    by_cases h10 : n < 10
    · simp [h10]
    · simp only [h10, if_false, List.length_append, List.length_singleton]
      have := ih (n / 10) (by omega)
      rw [pow_succ]
      omega

/-- With enough fuel, a number below ten to the `w` (`w ≥ 1`) has at most `w`
digits. -/
theorem plain.decimal_length_le : ∀ (fuel n w : Nat), n < fuel → n < 10 ^ w → 1 ≤ w →
    (plain.decimal fuel n).length ≤ w := by
  intro fuel
  induction fuel with
  | zero => intro n w h; omega
  | succ fuel ih =>
    intro n w hn hpow hw
    unfold plain.decimal
    by_cases h10 : n < 10
    · simpa [h10] using hw
    · simp only [h10, if_false, List.length_append, List.length_singleton]
      obtain ⟨w', rfl⟩ : ∃ w', w = w' + 1 := ⟨w - 1, by omega⟩
      have hw' : 1 ≤ w' := by
        by_contra hlt
        have : w' = 0 := by omega
        subst this
        simp at hpow
        omega
      rw [pow_succ] at hpow
      have := ih (n / 10) w' (by omega) (by omega) hw'
      omega

/-- A common beginning does not change how two strings compare. -/
theorem plain.strLt_append_left (p x y : Str) :
    plain.strLt (p ++ x) (p ++ y) = plain.strLt x y := by
  induction p with
  | nil => rfl
  | cons a p ih =>
    rw [List.cons_append, List.cons_append, plain.strLt, ih]
    simp

/-- Numbers written in fields of the same width compare as the numbers do,
whatever follows the fields. -/
theorem plain.fixedWidth_lt : ∀ (w i j : Nat) (e1 e2 : Str), i < j → j < 10 ^ w →
    plain.strLt (plain.fixedWidth w i ++ e1) (plain.fixedWidth w j ++ e2) = true := by
  intro w
  induction w with
  | zero => intro i j e1 e2 hij hj; simp at hj; omega
  | succ w ih =>
    intro i j e1 e2 hij hj
    simp only [plain.fixedWidth, List.append_assoc]
    rw [pow_succ] at hj
    by_cases hdiv : i / 10 < j / 10
    · exact ih (i / 10) (j / 10) _ _ hdiv (by omega)
    · have heq : i / 10 = j / 10 := by omega
      have hmod : i % 10 < j % 10 := by omega
      rw [heq, plain.strLt_append_left]
      simp [plain.strLt, hmod]

/-- What `savePage` guarantees about the order of names: for one extension and
two indices `i < j`, when the digits of `j` and the extension fit in ten bytes
together, the name for `i` is strictly smaller than the name for `j`. -/
theorem pageName_order_when_fits (ext : Str) (i j : Nat) (hij : i < j)
    (hfit : (plain.formatUint j).length + ext.length ≤ 10) :
    plain.strLt (plain.pageName i ext) (plain.pageName j ext) = true := by
  have hjpow := plain.decimal_lt_pow (j + 1) j (by omega)
  have hjlen : (plain.decimal (j + 1) j).length ≤ 10 - ext.length := by
    unfold plain.formatUint at hfit; omega
  have hjw : j < 10 ^ (10 - ext.length) :=
    lt_of_lt_of_le hjpow (Nat.pow_le_pow_right (by decide) hjlen)
  have hw : 1 ≤ 10 - ext.length := by
    by_contra hlt
    have h0 : 10 - ext.length = 0 := by omega
    rw [h0] at hjw
    simp at hjw
    omega
  have hilen := plain.decimal_length_le (i + 1) i (10 - ext.length) (by omega)
    (by omega) hw
  have hname : ∀ n : Nat, (plain.decimal (n + 1) n).length ≤ 10 - ext.length →
      plain.pageName n ext = plain.fixedWidth (10 - ext.length) n ++ ext := by
    intro n hn
    have h := util.PadZero_eq (plain.formatUint n ++ ext) 10
    simp only [Nat.cast_ofNat] at h
    rw [plain.pageName, h, ← plain.decimal_pad (n + 1) n (10 - ext.length) (by omega) hn]
    simp only [plain.formatUint, List.length_append, List.append_assoc]
    congr 2
    omega
  rw [hname i hilen, hname j hjlen]
  exact plain.fixedWidth_lt _ i j ext ext hij hjw

/-- The order guarantee at indices 9 and 10 with extension `.jpg`. -/
theorem pageName_order_when_fits_witness :
    plain.strLt (plain.pageName 9 (ascii ".jpg")) (plain.pageName 10 (ascii ".jpg")) = true :=
  pageName_order_when_fits (ascii ".jpg") 9 10 (by decide) (by decide)

/-! ## PagesOf -/

/-- When every fetch succeeds with a non-empty payload the loop runs to the end:
it appends one record per name to both slices, the record for the `k`-th name
carrying the loop counter truncated to 16 bits. -/
theorem mangadex.pagesLoop_all_ok (ext : Str → Str) (sourceID chapterID : Str)
    (get : Nat → Str → Except Error Str) (names : List Str) :
    ∀ (i : Nat) (chapterPages pages : List Page),
      (∀ k name, names[k]? = some name → ∃ image, get (i + k) name = .ok image ∧ image ≠ []) →
      ∃ built : List Page,
        mangadex.pagesLoop ext sourceID chapterID get i names chapterPages pages
          = (.ok (pages ++ built), chapterPages ++ built) ∧
        built.length = names.length ∧
        ∀ k page, built[k]? = some page → page.Index = (i + k) % 65536 := by
  induction names with
  | nil =>
    intro i chapterPages pages _
    exact ⟨[], by simp [mangadex.pagesLoop], rfl, by simp⟩
  | cons name names ih =>
    intro i chapterPages pages hok
    obtain ⟨image, himg, hne⟩ := hok 0 name (by simp)
    have hlen : ¬ image.length = 0 := by
      intro h; exact hne (List.length_eq_zero.mp h)
    obtain ⟨built, hb, hl, hi⟩ := ih (i + 1)
      (chapterPages ++ [{ Index := i % 65536, Chapter := chapterID, Extension := ext name,
                          Contents := image, SourceID := sourceID }])
      (pages ++ [{ Index := i % 65536, Chapter := chapterID, Extension := ext name,
                   Contents := image, SourceID := sourceID }])
      (by
        intro k nm hk
        have := hok (k + 1) nm (by simpa using hk)
        simpa [Nat.add_assoc, Nat.add_comm 1 k] using this)
    refine ⟨{ Index := i % 65536, Chapter := chapterID, Extension := ext name,
              Contents := image, SourceID := sourceID } :: built, ?_, by simp [hl], ?_⟩
    · simp only [Nat.add_zero] at himg
      simp only [mangadex.pagesLoop, himg, hlen, if_false, hb, List.append_assoc,
        List.singleton_append]
    · intro k page hk
      cases k with
      | zero =>
        simp only [List.getElem?_cons_zero, Option.some.injEq] at hk
        subst hk
        simp
      | succ k =>
        simp only [List.getElem?_cons_succ] at hk
        have := hi k page hk
        rw [this]
        congr 1
        omega

/-- What `PagesOf` does for every chapter, whatever it holds: when every fetch
succeeds with a non-empty payload, it returns one record per reported page, the
record at position `i` having `Index` `i mod 65536` (the field is 16 bits wide),
and `Chapter.Pages` ends as what it held before followed by the records returned. -/
theorem PagesOf_appends_to_existing (ext : Str → Str) (sourceID : Str)
    (downloader : mangadex.Downloader) (chapter : Chapter)
    (hN : 1 ≤ downloader.Pages.length)
    (hok : ∀ k name, downloader.Pages[k]? = some name →
      ∃ image, downloader.GetChapterPage k name = .ok image ∧ image ≠ []) :
    ∃ pages : List Page,
      (mangadex.PagesOf ext sourceID (.ok downloader) chapter).1 = .ok pages ∧
      pages.length = downloader.Pages.length ∧
      (∀ (i : Nat) (page : Page), pages[i]? = some page → page.Index = i % 65536) ∧
      (mangadex.PagesOf ext sourceID (.ok downloader) chapter).2.Pages
        = chapter.Pages ++ pages := by
  obtain ⟨built, hb, hl, hi⟩ := mangadex.pagesLoop_all_ok ext sourceID chapter.ID
    downloader.GetChapterPage downloader.Pages 0 chapter.Pages []
    (by intro k name hk; simpa using hok k name hk)
  have hne : ¬ downloader.Pages.length = 0 := by omega
  refine ⟨built, by simp [mangadex.PagesOf, hne, hb], hl, ?_, by simp [mangadex.PagesOf, hne, hb]⟩
  intro i page h
  simpa using hi i page h

/-- The case in which the chapter ends with exactly the records returned: for
every `N ≥ 1` and every chapter whose `Pages` is empty before the call, when the origin reports `N` pages that all fetch successfully
with non-empty payloads, `PagesOf` succeeds, returns exactly `N` records and
leaves `Chapter.Pages` holding exactly those records; the record at position `i`
has `Index` `i mod 65536` (the field is 16 bits wide), which is `i` whenever
`N ≤ 65536`. -/
theorem PagesOf_populates_fresh_chapter (ext : Str → Str) (sourceID : Str)
    (downloader : mangadex.Downloader) (chapter : Chapter)
    (hN : 1 ≤ downloader.Pages.length)
    (hfresh : chapter.Pages = [])
    (hok : ∀ k name, downloader.Pages[k]? = some name →
      ∃ image, downloader.GetChapterPage k name = .ok image ∧ image ≠ []) :
    ∃ pages : List Page,
      (mangadex.PagesOf ext sourceID (.ok downloader) chapter).1 = .ok pages ∧
      pages.length = downloader.Pages.length ∧
      (mangadex.PagesOf ext sourceID (.ok downloader) chapter).2.Pages = pages ∧
      (∀ (i : Nat) (page : Page), pages[i]? = some page → page.Index = i % 65536) ∧
      (downloader.Pages.length ≤ 65536 →
        ∀ (i : Nat) (page : Page), pages[i]? = some page → page.Index = i) := by
  obtain ⟨built, hb, hl, hi⟩ := mangadex.pagesLoop_all_ok ext sourceID chapter.ID
    downloader.GetChapterPage downloader.Pages 0 chapter.Pages []
    (by intro k name hk; simpa using hok k name hk)
  have hne : ¬ downloader.Pages.length = 0 := by omega
  rw [hfresh] at hb
  have hidx : ∀ (i : Nat) (page : Page), built[i]? = some page → page.Index = i % 65536 := by
    intro i page h
    simpa using hi i page h
  refine ⟨built, ?_, hl, ?_, hidx, ?_⟩
  · simp [mangadex.PagesOf, hne, hfresh, hb]
  · simp [mangadex.PagesOf, hne, hfresh, hb]
  · intro hle i page h
    have hlt : i < built.length := by
      by_contra hge
      rw [List.getElem?_eq_none (by omega)] at h
      exact Option.noConfusion h
    rw [hidx i page h]
    exact Nat.mod_eq_of_lt (by omega)

/-- The fresh-chapter case at a chapter without pages and an origin reporting two
pages. -/
theorem PagesOf_populates_fresh_chapter_witness :
    ∃ pages : List Page,
      (mangadex.PagesOf mangadex.filepathExt (ascii "Mangadex")
        (.ok (mangadex.uniformClient [ascii "1.png", ascii "2.png"] [137, 80]))
        { ID := [99], Name := [], MangaName := [], Pages := [] }).1 = .ok pages ∧
      pages.length =
        (mangadex.uniformClient [ascii "1.png", ascii "2.png"] [137, 80]).Pages.length ∧
      (mangadex.PagesOf mangadex.filepathExt (ascii "Mangadex")
        (.ok (mangadex.uniformClient [ascii "1.png", ascii "2.png"] [137, 80]))
        { ID := [99], Name := [], MangaName := [], Pages := [] }).2.Pages = pages ∧
      (∀ (i : Nat) (page : Page), pages[i]? = some page → page.Index = i % 65536) ∧
      ((mangadex.uniformClient [ascii "1.png", ascii "2.png"] [137, 80]).Pages.length ≤ 65536 →
        ∀ (i : Nat) (page : Page), pages[i]? = some page → page.Index = i) :=
  PagesOf_populates_fresh_chapter mangadex.filepathExt (ascii "Mangadex")
    (mangadex.uniformClient [ascii "1.png", ascii "2.png"] [137, 80])
    { ID := [99], Name := [], MangaName := [], Pages := [] } (by decide) rfl
    (by intro k name _; exact ⟨[137, 80], rfl, by decide⟩)

/-- C5 (fails on the code): `PagesOf` appends to `Chapter.Pages` what it collects in
a fresh local slice. For a chapter that already holds one page and whose origin
reports one page, it succeeds and returns exactly one record, but leaves the
chapter with two pages, the old one followed by the one returned. Called a second
time on the chapter a first call populated with two pages, it returns two records
and leaves the chapter with four, whose indices are 0, 1, 0, 1. -/
theorem PagesOf_appends_to_held_pages :
    ((mangadex.PagesOf mangadex.filepathExt (ascii "Mangadex")
        (.ok (mangadex.uniformClient [ascii "1.png"] [137, 80])) mangadex.heldOnePage).1
      = .ok [{ Index := 0, Chapter := [99], Extension := ascii ".png", Contents := [137, 80],
               SourceID := ascii "Mangadex" }] ∧
     (mangadex.PagesOf mangadex.filepathExt (ascii "Mangadex")
        (.ok (mangadex.uniformClient [ascii "1.png"] [137, 80])) mangadex.heldOnePage).2.Pages
      = [{ Index := 0, Chapter := [99], Extension := ascii ".jpg", Contents := [7],
           SourceID := ascii "Mangadex" },
         { Index := 0, Chapter := [99], Extension := ascii ".png", Contents := [137, 80],
           SourceID := ascii "Mangadex" }] ∧
     (mangadex.PagesOf mangadex.filepathExt (ascii "Mangadex")
        (.ok (mangadex.uniformClient [ascii "1.png"] [137, 80])) mangadex.heldOnePage).2.Pages
      ≠ [{ Index := 0, Chapter := [99], Extension := ascii ".png", Contents := [137, 80],
           SourceID := ascii "Mangadex" }]) ∧
    (mangadex.populatedOnce.Pages.map (fun page => page.Index) = [0, 1] ∧
     (mangadex.PagesOf mangadex.filepathExt (ascii "Mangadex")
        (.ok (mangadex.uniformClient [ascii "1.png", ascii "2.png"] [137, 80]))
        mangadex.populatedOnce).1
      = .ok [{ Index := 0, Chapter := [99], Extension := ascii ".png", Contents := [137, 80],
               SourceID := ascii "Mangadex" },
             { Index := 1, Chapter := [99], Extension := ascii ".png", Contents := [137, 80],
               SourceID := ascii "Mangadex" }] ∧
     (mangadex.PagesOf mangadex.filepathExt (ascii "Mangadex")
        (.ok (mangadex.uniformClient [ascii "1.png", ascii "2.png"] [137, 80]))
        mangadex.populatedOnce).2.Pages.map (fun page => page.Index) = [0, 1, 0, 1]) := by
  exact ⟨⟨rfl, by decide, by decide⟩, by decide, rfl, by decide⟩

/-- The 16-bit index wraps: for a chapter without pages whose origin reports 65537
pages, the record at position 65536 has `Index` 0. -/
theorem PagesOf_index_wraps_at_65536 :
    ∃ (pages : List Page) (page : Page),
      (mangadex.PagesOf mangadex.filepathExt (ascii "Mangadex")
        (.ok (mangadex.uniformClient (List.replicate 65537 (ascii "1.png")) [137, 80]))
        { ID := [99], Name := [], MangaName := [], Pages := [] }).1 = .ok pages ∧
      pages[65536]? = some page ∧ page.Index = 0 ∧ page.Index ≠ 65536 := by
  obtain ⟨built, hb, hl, hi⟩ := mangadex.pagesLoop_all_ok mangadex.filepathExt
    (ascii "Mangadex") [99]
    (fun _ _ => .ok [137, 80]) (List.replicate 65537 (ascii "1.png")) 0 [] []
    (by intro k name _; exact ⟨[137, 80], rfl, by decide⟩)
  have hlen : built.length = 65537 := by rw [hl, List.length_replicate]
  have hlt : 65536 < built.length := by omega
  have hget : built[65536]? = some built[65536] := List.getElem?_eq_getElem hlt
  have hidx : built[65536].Index = 0 := by
    have := hi 65536 _ hget
    simpa using this
  refine ⟨built, built[65536], ?_, hget, hidx, by rw [hidx]; decide⟩
  have hne : ¬ (List.replicate 65537 (ascii "1.png")).length = 0 := by
    rw [List.length_replicate]; decide
  simp only [mangadex.PagesOf, mangadex.uniformClient, hne, if_false]
  rw [hb]
  simp

/-- C6 (fails on the code): for a chapter without pages whose origin reports two
pages, the first fetched and the second failing, `PagesOf` returns the error of the
second fetch and leaves the first page appended to `Chapter.Pages`. -/
theorem PagesOf_error_leaves_partial_pages :
    (mangadex.PagesOf mangadex.filepathExt (ascii "Mangadex") (.ok mangadex.secondFails)
        { ID := [99], Name := [], MangaName := [], Pages := [] }).1 = .error "timeout" ∧
    (mangadex.PagesOf mangadex.filepathExt (ascii "Mangadex") (.ok mangadex.secondFails)
        { ID := [99], Name := [], MangaName := [], Pages := [] }).2.Pages
      = [{ Index := 0, Chapter := [99], Extension := ascii ".png", Contents := [137, 80],
           SourceID := ascii "Mangadex" }] ∧
    (mangadex.PagesOf mangadex.filepathExt (ascii "Mangadex") (.ok mangadex.secondFails)
        { ID := [99], Name := [], MangaName := [], Pages := [] }).2.Pages ≠ [] := by
  exact ⟨rfl, by decide, by decide⟩

/-! ## Save -/

/-- Once `err` is set the loop keeps it: every remaining page is skipped. -/
theorem plain.saveLoop_err_kept (io : Nat → plain.PageIO) (e : Error) (pages : List Page) :
    ∀ pos : Nat, (plain.saveLoop io pos (some e) pages).1 = some e := by
  induction pages with
  | nil => intro pos; rfl
  | cons page pages ih => intro pos; simp [plain.saveLoop, ih]

/-- The loop ends with `err` unset exactly when `savePage` succeeds on every page. -/
theorem plain.saveLoop_ok_iff (io : Nat → plain.PageIO) (pages : List Page) :
    ∀ pos : Nat, (plain.saveLoop io pos none pages).1 = none ↔
      ∀ (k : Nat) (page : Page), pages[k]? = some page →
        (plain.savePage page (io (pos + k))).err = none := by
  induction pages with
  | nil => intro pos; simp [plain.saveLoop]
  | cons page pages ih =>
    intro pos
    simp only [plain.saveLoop]
    cases hs : (plain.savePage page (io pos)).err with
    | some e =>
      simp only [plain.saveLoop_err_kept]
      constructor
      · intro h
        exact absurd h (by simp)
      · intro h
        have := h 0 page (by simp)
        simp [hs] at this
    | none =>
      rw [ih (pos + 1)]
      constructor
      · intro h k q hk
        cases k with
        | zero =>
          simp only [List.getElem?_cons_zero, Option.some.injEq] at hk
          subst hk
          simpa using hs
        | succ k =>
          have := h k q (by simpa using hk)
          simpa [Nat.add_assoc, Nat.add_comm 1 k] using this
      · intro h k q hk
        have := h (k + 1) q (by simpa using hk)
        simpa [Nat.add_assoc, Nat.add_comm 1 k] using this

/-- The loop ends with the error of the first page on which `savePage` fails. -/
theorem plain.saveLoop_first_failure (io : Nat → plain.PageIO) (pages : List Page) :
    ∀ (pos k : Nat) (page : Page) (e : Error), pages[k]? = some page →
      (plain.savePage page (io (pos + k))).err = some e →
      (∀ (j : Nat) (q : Page), j < k → pages[j]? = some q →
        (plain.savePage q (io (pos + j))).err = none) →
      (plain.saveLoop io pos none pages).1 = some e := by
  induction pages with
  | nil => intro pos k page e hk; simp at hk
  | cons p pages ih =>
    intro pos k page e hk he hbefore
    simp only [plain.saveLoop]
    cases k with
    | zero =>
      simp only [List.getElem?_cons_zero, Option.some.injEq] at hk
      subst hk
      simp only [Nat.add_zero] at he
      rw [he]
      exact plain.saveLoop_err_kept io e pages (pos + 1)
    | succ k =>
      have h0 := hbefore 0 p (by omega) (by simp)
      simp only [Nat.add_zero] at h0
      rw [h0]
      refine ih (pos + 1) k page e (by simpa using hk) ?_ ?_
      · simpa [Nat.add_assoc, Nat.add_comm 1 k] using he
      · intro j q hj hq
        have := hbefore (j + 1) q (by omega) (by simpa using hq)
        simpa [Nat.add_assoc, Nat.add_comm 1 j] using this

/-- With the chapter directory prepared, `Save` returns the error the loop ends
with, and an empty path whenever that error is set. -/
theorem plain.Save_err_of_prepared (env : plain.Env) (chapter : Chapter)
    (hdir : (plain.prepareChapterDir env chapter).2 = none) :
    (plain.Save env chapter).err = (plain.saveLoop env.io 0 none chapter.Pages).1 ∧
    ((plain.Save env chapter).err ≠ none → (plain.Save env chapter).path = []) := by
  rcases hp : plain.prepareChapterDir env chapter with ⟨d, oe⟩
  rw [hp] at hdir
  simp only at hdir
  subst hdir
  rcases hs : plain.saveLoop env.io 0 none chapter.Pages with ⟨r, closes⟩
  cases r with
  | some e => simp [plain.Save, hp, hs]
  | none =>
    cases ha : env.abs (env.dir d) <;> simp [plain.Save, hp, hs, ha]

/-- C7: for every chapter whose directory was prepared successfully, `Save`
returns a nil error exactly when `savePage` succeeds on every page of the chapter;
when the first page (in `Pages` order) whose `savePage` fails does so with error
`e`, `Save` returns `e` with an empty path; and when any page fails `Save` returns
a non-nil error with an empty path. -/
theorem Save_reports_first_failure (env : plain.Env) (chapter : Chapter)
    (hdir : (plain.prepareChapterDir env chapter).2 = none) :
    ((plain.Save env chapter).err = none ↔
      ∀ (k : Nat) (page : Page), chapter.Pages[k]? = some page →
        (plain.savePage page (env.io k)).err = none) ∧
    (∀ (k : Nat) (page : Page) (e : Error), chapter.Pages[k]? = some page →
      (plain.savePage page (env.io k)).err = some e →
      (∀ (j : Nat) (q : Page), j < k → chapter.Pages[j]? = some q →
        (plain.savePage q (env.io j)).err = none) →
      (plain.Save env chapter).err = some e ∧ (plain.Save env chapter).path = []) ∧
    ((∃ (k : Nat) (page : Page), chapter.Pages[k]? = some page ∧
        (plain.savePage page (env.io k)).err ≠ none) →
      (plain.Save env chapter).err ≠ none ∧ (plain.Save env chapter).path = []) := by
  obtain ⟨herr, hpath⟩ := plain.Save_err_of_prepared env chapter hdir
  have hiff : (plain.Save env chapter).err = none ↔
      ∀ (k : Nat) (page : Page), chapter.Pages[k]? = some page →
        (plain.savePage page (env.io k)).err = none := by
    rw [herr, plain.saveLoop_ok_iff env.io chapter.Pages 0]
    simp
  refine ⟨hiff, ?_, ?_⟩
  · intro k page e hk he hbefore
    have h := plain.saveLoop_first_failure env.io chapter.Pages 0 k page e hk
      (by simpa using he) (by intro j q hj hq; simpa using hbefore j q hj hq)
    have h2 : (plain.Save env chapter).err = some e := by rw [herr, h]
    exact ⟨h2, hpath (by rw [h2]; simp)⟩
  · rintro ⟨k, page, hk, hfail⟩
    have hne : (plain.Save env chapter).err ≠ none := by
      intro hnone
      exact hfail (hiff.mp hnone k page hk)
    exact ⟨hne, hpath hne⟩

/-- C7 at the three-page chapter when the copy of the second page fails. -/
theorem Save_reports_first_failure_witness :
    (plain.Save (plain.envFailing fun k => if k = 1 then some false else none)
        plain.threePages).err = some "unexpected EOF" ∧
    (plain.Save (plain.envFailing fun k => if k = 1 then some false else none)
        plain.threePages).path = [] :=
  (Save_reports_first_failure (plain.envFailing fun k => if k = 1 then some false else none)
    plain.threePages (by decide)).2.1 1
    { Index := 1, Chapter := [99], Extension := ascii ".jpg", Contents := [2], SourceID := [] }
    "unexpected EOF" (by decide) (by decide)
    (by
      intro j q hj hq
      have hj0 : j = 0 := by omega
      subst hj0
      simp only [plain.threePages, List.getElem?_cons_zero, Option.some.injEq] at hq
      subst hq
      decide)

/-- C9 (fails on the code): in the three-page chapter, when creating the file of
the second page fails, `Save` returns that error having closed the first page
once and the second and third pages not at all; when instead the copy of the
first page fails, no page is closed. -/
theorem Save_failure_leaves_pages_unclosed :
    (plain.Save (plain.envFailing fun k => if k = 1 then some true else none)
        plain.threePages).err = some "permission denied" ∧
    (plain.Save (plain.envFailing fun k => if k = 1 then some true else none)
        plain.threePages).closes = [1, 0, 0] ∧
    (plain.Save (plain.envFailing fun k => if k = 0 then some false else none)
        plain.threePages).err = some "unexpected EOF" ∧
    (plain.Save (plain.envFailing fun k => if k = 0 then some false else none)
        plain.threePages).closes = [0, 0, 0] ∧
    (plain.Save (plain.envFailing fun _ => none) plain.threePages).closes = [1, 1, 1] := by
  decide

/-! ## Provider resolution -/

/-- The loop returns nothing exactly when no provider of the list has the name. -/
theorem provider.firstNamed_eq_none {σ : Type} (name : Str) (ps : List (provider.Provider σ)) :
    provider.firstNamed name ps = none ↔ ∀ p ∈ ps, p.Name ≠ name := by
  induction ps with
  | nil => simp [provider.firstNamed]
  | cons p ps ih =>
    by_cases h : p.Name = name
    · simp [provider.firstNamed, h]
    · simp [provider.firstNamed, h, ih]

/-- The loop returns the first provider of the list that has the name. -/
theorem provider.firstNamed_first {σ : Type} (name : Str)
    (pre : List (provider.Provider σ)) (p : provider.Provider σ)
    (post : List (provider.Provider σ)) (hp : p.Name = name)
    (hpre : ∀ x ∈ pre, x.Name ≠ name) :
    provider.firstNamed name (pre ++ p :: post) = some p := by
  induction pre with
  | nil => simp [provider.firstNamed, hp]
  | cons x pre ih =>
    have hx : x.Name ≠ name := hpre x (by simp)
    have hrest : ∀ y ∈ pre, y.Name ≠ name := fun y hy => hpre y (by simp [hy])
    simp [provider.firstNamed, hx, ih hrest]

/-- C8: `Get` resolves by exact `Name` equality with built-ins first. The first
built-in with the name is returned whatever the plugins are; when no built-in has
the name, the first plugin with the name is returned; and nothing is returned
exactly when neither a built-in nor a plugin has the name. -/
theorem Get_builtins_take_precedence {σ : Type} (builtins customs : List (provider.Provider σ))
    (name : Str) :
    (∀ (pre : List (provider.Provider σ)) (b : provider.Provider σ)
        (post : List (provider.Provider σ)),
      builtins = pre ++ b :: post → b.Name = name → (∀ x ∈ pre, x.Name ≠ name) →
      provider.Get builtins customs name = some b) ∧
    ((∀ x ∈ builtins, x.Name ≠ name) →
      ∀ (pre : List (provider.Provider σ)) (c : provider.Provider σ)
        (post : List (provider.Provider σ)),
      customs = pre ++ c :: post → c.Name = name → (∀ x ∈ pre, x.Name ≠ name) →
      provider.Get builtins customs name = some c) ∧
    (provider.Get builtins customs name = none ↔
      (∀ x ∈ builtins, x.Name ≠ name) ∧ (∀ x ∈ customs, x.Name ≠ name)) ∧
    (∀ p : provider.Provider σ, provider.Get builtins customs name = some p →
      p.Name = name ∧ (p ∈ builtins ∨ p ∈ customs)) := by
  refine ⟨?_, ?_, ?_, ?_⟩
  · intro pre b post hb hname hpre
    subst hb
    simp [provider.Get, provider.firstNamed_first name pre b post hname hpre]
  · intro hnone pre c post hc hname hpre
    subst hc
    have h := (provider.firstNamed_eq_none name builtins).mpr hnone
    simp [provider.Get, h, provider.firstNamed_first name pre c post hname hpre]
  · unfold provider.Get
    cases hb : provider.firstNamed name builtins with
    | some b =>
      have : ¬ ∀ x ∈ builtins, x.Name ≠ name := by
        rw [← provider.firstNamed_eq_none, hb]; simp
      simp [this]
    | none =>
      simp only [provider.firstNamed_eq_none]
      have := (provider.firstNamed_eq_none name builtins).mp hb
      exact ⟨fun h => ⟨this, h⟩, fun h => h.2⟩
  · have key : ∀ (ps : List (provider.Provider σ)) (p : provider.Provider σ),
        provider.firstNamed name ps = some p → p.Name = name ∧ p ∈ ps := by
      intro ps
      induction ps with
      | nil => intro p h; simp [provider.firstNamed] at h
      | cons x ps ih =>
        intro p h
        by_cases hx : x.Name = name
        · simp only [provider.firstNamed, hx, if_true, Option.some.injEq] at h
          subst h
          exact ⟨hx, by simp⟩
        · simp only [provider.firstNamed, hx, if_false] at h
          obtain ⟨h1, h2⟩ := ih p h
          exact ⟨h1, by simp [h2]⟩
    intro p hp
    unfold provider.Get at hp
    cases hb : provider.firstNamed name builtins with
    | some b =>
      rw [hb] at hp
      simp only [Option.some.injEq] at hp
      subst hp
      exact ⟨(key builtins b hb).1, Or.inl (key builtins b hb).2⟩
    | none =>
      rw [hb] at hp
      exact ⟨(key customs p hp).1, Or.inr (key customs p hp).2⟩

end Mangal
